import Mathlib

/-!
Verification development for the ds-store-dump crawler
(src/ds_store_dump/DSStoreDumper.py).

The Python source is shallowly embedded as executable Lean definitions:

* the two module-level regexes DOWNLOAD_RE / EXTENSION_RE become the
  decidable predicates `downloadMatch` and `extensionSearch`;
* `normalize_ds_store_url` is embedded together with the parts of
  urllib.parse (`urlsplit`, `urlunsplit`, `urljoin`) that it and the
  worker rely on;
* the local-path computation `output_directory / unquote(url.split('://')[1])`
  becomes `pathOf`;
* the asyncio machinery (`asyncio.Queue` with its unfinished-task counter
  and `join`, the `worker` coroutine, and `run`) becomes an explicit
  transition system `step` over `SysState`, scheduled by an external list
  of `Choice`s; one transition corresponds to one maximal run of
  straight-line Python between suspension points (the only suspension
  point inside the processing of one item is the network fetch).

Strings are manipulated as `List Char` throughout, mirroring Python's
character-wise string operations.
-/

namespace DSStoreDump

/-! ### List-of-char string helpers -/

/-- Does the second list start with the first one? -/
def startsWithL : List Char → List Char → Bool
  | [], _ => true
  | _ :: _, [] => false
  | p :: ps, c :: cs => p == c && startsWithL ps cs

/-- Python `pat in s` substring test. -/
def containsL (pat : List Char) : List Char → Bool
  | [] => pat.isEmpty
  | c :: cs => startsWithL pat (c :: cs) || containsL pat cs

/-- Python `s.endswith(pat)`. -/
def endsWithL (pat l : List Char) : Bool :=
  startsWithL pat.reverse l.reverse

/-- Split at the first occurrence of the pattern: returns the part before
it and the part after it, or `none` when the pattern does not occur. -/
def splitFirstSub (pat : List Char) : List Char → Option (List Char × List Char)
  | [] => if pat.isEmpty then some ([], []) else none
  | c :: cs =>
      if startsWithL pat (c :: cs) then some ([], (c :: cs).drop pat.length)
      else (splitFirstSub pat cs).map (fun pr => (c :: pr.1, pr.2))

/-- Python `s.split(sep)` for a one-character separator. -/
def splitOnChar (sep : Char) : List Char → List (List Char)
  | [] => [[]]
  | c :: cs =>
      let r := splitOnChar sep cs
      if c = sep then [] :: r
      else
        match r with
        | [] => [[c]]
        | h :: t => (c :: h) :: t

/-- Python `sep.join(parts)` for a one-character separator. -/
def joinWith (sep : Char) : List (List Char) → List Char
  | [] => []
  | [x] => x
  | x :: y :: xs => x ++ sep :: joinWith sep (y :: xs)

/-- ASCII lower-casing of one character (Python `str.lower` restricted to
ASCII, which is all the source's patterns use). -/
def lowerChar (c : Char) : Char :=
  if 'A' ≤ c ∧ c ≤ 'Z' then Char.ofNat (c.toNat + 32) else c

def lowerL (cs : List Char) : List Char := cs.map lowerChar

def isAsciiLetter (c : Char) : Bool :=
  ('a' ≤ c && c ≤ 'z') || ('A' ≤ c && c ≤ 'Z')

def isAsciiLowercase (c : Char) : Bool := 'a' ≤ c && c ≤ 'z'

def isAsciiDigit (c : Char) : Bool := '0' ≤ c && c ≤ '9'

/-! ### The DOWNLOAD_RE regex

```
DOWNLOAD_RE = re.compile(
    '\.DS_Store|'
    '.*\.(?i)(?:tar|t?gz|zip|rar|sql|env|ya?ml|json|co?nf|config|ini|inc|'
    'sh|bash|zsh|py3?|dockerfile|txt|docx?|md|bak|swp|[a-z]+[1~])')
```

used as `DOWNLOAD_RE.fullmatch(filename)`.  On the Python versions the
source runs on (pre-3.11), the mid-pattern `(?i)` applies to the whole
pattern, so every alternative is matched case-insensitively.  A `fullmatch`
succeeds exactly when the whole name is `.DS_Store` (case-insensitively),
or the name decomposes as `prefix ++ '.' ++ alt` where the prefix (matched
by `.*`) contains no newline and `alt` is one of the finite alternatives or
matches `[a-z]+[1~]`. -/

/-- The finite suffix alternatives of DOWNLOAD_RE, with the `?`-optional
letters expanded, lower-cased. -/
def downloadAlts : List (List Char) :=
  ["tar", "gz", "tgz", "zip", "rar", "sql", "env", "yml", "yaml", "json",
   "cnf", "conf", "config", "ini", "inc", "sh", "bash", "zsh", "py", "py3",
   "dockerfile", "txt", "doc", "docx", "md", "bak", "swp"].map String.data

/-- The `[a-z]+[1~]` alternative (case already folded by the caller):
one or more letters followed by a final '1' or '~'. -/
def altTail (cs : List Char) : Bool :=
  decide (2 ≤ cs.length) && cs.dropLast.all isAsciiLowercase &&
    (cs.getLast? == some '1' || cs.getLast? == some '~')

/-- One suffix alternative of DOWNLOAD_RE (on a lower-cased candidate). -/
def altMatch (cs : List Char) : Bool :=
  downloadAlts.contains cs || altTail cs

/-- The `.*\.(?:...)` branch of DOWNLOAD_RE: some decomposition
`pre ++ '.' ++ suffix` of the (lower-cased) name where `pre` contains no
newline (regex `.` does not cross newlines) and `suffix` is an
alternative. -/
def dotSuffixMatch (lc : List Char) : Bool :=
  (List.range lc.length).any fun i =>
    lc.get? i == some '.' && (lc.take i).all (· ≠ '\n') &&
      altMatch (lc.drop (i + 1))

/-- `DOWNLOAD_RE.fullmatch(name)` as a Bool. -/
def downloadMatch (name : String) : Bool :=
  let lc := lowerL name.data
  lc == ".ds_store".data || dotSuffixMatch lc

/-! ### The EXTENSION_RE regex

```
EXTENSION_RE = re.compile(r'\.[a-z]{1,4}[0-9]?$', re.I)
```

used as `EXTENSION_RE.search(filename)`: somewhere in the name there is a
'.' followed by one to four letters (case-insensitive) and an optional
digit, ending at the end of the string; Python's `$` also matches just
before a final newline. -/

/-- Does `\.[a-z]{1,4}[0-9]?` (case-insensitive) match ending exactly at
the end of `cs`? -/
def extMatchEnd (cs : List Char) : Bool :=
  let chk : List Char → Bool := fun r =>
    (List.range 4).any fun j =>
      let k := j + 1
      decide ((r.take k).length = k) && (r.take k).all isAsciiLetter &&
        r.get? k == some '.'
  let r := cs.reverse
  chk r ||
    (match r with
     | d :: rest => isAsciiDigit d && chk rest
     | [] => false)

/-- `EXTENSION_RE.search(name)` as a Bool (the trailing `$` can match at
the very end or just before a final newline). -/
def extensionSearch (name : String) : Bool :=
  extMatchEnd name.data ||
    (name.data.getLast? == some '\n' && extMatchEnd name.data.dropLast)

/-! ### The classifier

The worker classifies each decoded entry name:

```
if DOWNLOAD_RE.fullmatch(filename):       # enqueue file_url as-is
elif not EXTENSION_RE.search(filename):   # probe as directory
else:                                     # ignore
```
-/

inductive ClassifyResult
  | directFetch
  | probeAsDirectory
  | ignore
deriving DecidableEq, Repr

/-- The classifier: the DOWNLOAD_RE check is evaluated first, then the
no-extension check, otherwise the entry is ignored. -/
def classify (name : String) : ClassifyResult :=
  if downloadMatch name then .directFetch
  else if ¬ extensionSearch name then .probeAsDirectory
  else .ignore

/-! ### urllib.parse: urlsplit / urlunsplit / urljoin

The source resolves entry names with `urllib.parse.urljoin` and
normalizes seeds through it; these definitions embed CPython's
`Lib/urllib/parse.py` (the 3.10 line, which is what the source runs on:
its mid-pattern `(?i)` regex flag is rejected from 3.11 on).  `urljoin`
is implemented there via `urlparse`/`urlunparse`; the extra `params`
component those carry (split off after a ';' in the last path segment)
never changes the output of `urljoin` — the last path segment either ends
the base path and is deleted wholesale by the merge, or is empty and then
carries no params — so the embedding works with the five-component
split. -/

/-- Python's `scheme_chars` from urllib.parse. -/
def schemeChars : List Char :=
  "abcdefghijklmnopqrstuvwxyzABCDEFGHIJKLMNOPQRSTUVWXYZ0123456789+-.".data

/-- urllib.parse.uses_relative. -/
def usesRelative : List (List Char) :=
  ["", "ftp", "http", "gopher", "nntp", "imap", "wais", "file", "https",
   "shttp", "mms", "prospero", "rtsp", "rtspu", "sftp", "svn", "svn+ssh",
   "ws", "wss"].map String.data

/-- urllib.parse.uses_netloc. -/
def usesNetloc : List (List Char) :=
  ["", "ftp", "http", "gopher", "nntp", "telnet", "imap", "wais", "file",
   "mms", "https", "shttp", "snews", "prospero", "rtsp", "rtspu", "rsync",
   "svn", "svn+ssh", "sftp", "nfs", "git", "git+ssh", "ws", "wss"].map
    String.data

structure SplitURL where
  scheme : List Char
  netloc : List Char
  path : List Char
  query : List Char
  fragment : List Char
deriving DecidableEq, Repr

/-- urlsplit removes tab, carriage return and newline from the URL before
parsing (the _UNSAFE_URL_BYTES_TO_REMOVE fix present in 3.10). -/
def removeUnsafe (cs : List Char) : List Char :=
  cs.filter fun c => c ≠ '\t' ∧ c ≠ '\r' ∧ c ≠ '\n'

/-- urllib.parse.urlsplit (given a default scheme, as urljoin calls it).
The scheme is recognized when a first colon exists at index > 0 and every
character before it is in `scheme_chars`; the netloc follows a leading
"//" up to the first of '/', '?', '#'; the fragment is split at the first
'#', then the query at the first '?'. -/
def urlsplitL (defaultScheme : List Char) (url0 : List Char) : SplitURL :=
  let url := removeUnsafe url0
  let (scheme, rest) :=
    match url.findIdx? (· = ':') with
    | some i =>
        if 0 < i ∧ (url.take i).all (schemeChars.contains ·) then
          (lowerL (url.take i), url.drop (i + 1))
        else (defaultScheme, url)
    | none => (defaultScheme, url)
  let (netloc, rest) :=
    if startsWithL "//".data rest then
      let after := rest.drop 2
      (after.takeWhile (fun c => c ≠ '/' ∧ c ≠ '?' ∧ c ≠ '#'),
       after.dropWhile (fun c => c ≠ '/' ∧ c ≠ '?' ∧ c ≠ '#'))
    else ([], rest)
  let (rest, fragment) :=
    match splitFirstSub ['#'] rest with
    | some pr => pr
    | none => (rest, [])
  let (path, query) :=
    match splitFirstSub ['?'] rest with
    | some pr => pr
    | none => (rest, [])
  ⟨scheme, netloc, path, query, fragment⟩

/-- urllib.parse.urlunsplit. -/
def urlunsplitL (u : SplitURL) : List Char :=
  let url := u.path
  let url :=
    if ¬ u.netloc.isEmpty ∨ (¬ url.isEmpty ∧ url.take 2 = "//".data) then
      let url := if ¬ url.isEmpty ∧ url.head? ≠ some '/' then '/' :: url else url
      "//".data ++ u.netloc ++ url
    else url
  let url := if ¬ u.scheme.isEmpty then u.scheme ++ ':' :: url else url
  let url := if ¬ u.query.isEmpty then url ++ '?' :: u.query else url
  if ¬ u.fragment.isEmpty then url ++ '#' :: u.fragment else url

/-- The `segments[1:-1] = filter(None, segments[1:-1])` step of urljoin:
drop empty segments strictly between the first and the last. -/
def filterInterior (l : List (List Char)) : List (List Char) :=
  match l with
  | [] => []
  | [x] => [x]
  | x :: rest =>
      x :: (rest.dropLast.filter (¬ ·.isEmpty)) ++ [rest.getLast?.getD []]

/-- The dot-segment resolution loop of urljoin: '..' pops (ignoring
underflow, like the `except IndexError: pass`), '.' is skipped. -/
def resolveDots (segs : List (List Char)) : List (List Char) :=
  segs.foldl
    (fun acc seg =>
      if seg = "..".data then acc.dropLast
      else if seg = ".".data then acc
      else acc ++ [seg])
    []

/-- urllib.parse.urljoin. -/
def urljoin (base url : String) : String :=
  if base.data.isEmpty then url
  else if url.data.isEmpty then base
  else
    let b := urlsplitL [] base.data
    let r := urlsplitL b.scheme url.data
    if r.scheme ≠ b.scheme ∨ ¬ usesRelative.contains r.scheme then url
    else if usesNetloc.contains r.scheme ∧ ¬ r.netloc.isEmpty then
      ⟨urlunsplitL r⟩
    else
      let netloc := if usesNetloc.contains r.scheme then b.netloc else r.netloc
      if r.path.isEmpty then
        let query := if r.query.isEmpty then b.query else r.query
        ⟨urlunsplitL ⟨r.scheme, netloc, b.path, query, r.fragment⟩⟩
      else
        let baseParts0 := splitOnChar '/' b.path
        let baseParts :=
          if baseParts0.getLast? ≠ some [] then baseParts0.dropLast
          else baseParts0
        let segments :=
          if r.path.head? = some '/' then splitOnChar '/' r.path
          else filterInterior (baseParts ++ splitOnChar '/' r.path)
        let resolved := resolveDots segments
        let resolved :=
          if segments.getLast? = some ".".data ∨ segments.getLast? = some "..".data
          then resolved ++ [[]]
          else resolved
        let joined := joinWith '/' resolved
        let path := if joined.isEmpty then "/".data else joined
        ⟨urlunsplitL ⟨r.scheme, netloc, path, r.query, r.fragment⟩⟩

/-! ### The URL normalizer

```
def normalize_ds_store_url(url: str) -> str:
    if '://' not in url:
        url = f'http://{url}'
    if not url.endswith(f'/.DS_Store'):
        if not url.endswith('/'):
            url += '/'
        url = urljoin(url, '.DS_Store')
    return url
```
-/

def normalize_ds_store_url (url : String) : String :=
  let url := if ¬ containsL "://".data url.data then ⟨"http://".data ++ url.data⟩ else url
  if ¬ endsWithL "/.DS_Store".data url.data then
    let url : String := if ¬ endsWithL "/".data url.data then ⟨url.data ++ ['/']⟩ else url
    urljoin url ".DS_Store"
  else url

/-! ### The output path mapper

```
downloaded = self.output_directory / unquote(url.split('://')[1])
```

`url.split('://')[1]` is the text between the first and the second
occurrence of '://' (everything after the first when there is no second);
when '://' does not occur at all the indexing raises IndexError, which
the worker's outer handler absorbs — `pathOf` returns `none` there.
`Path.__truediv__` with an absolute right operand discards the left one,
and `PurePath` drops empty and single-dot segments, so local paths are
modelled as a normalized segment list. -/

def isHexDigit (c : Char) : Bool :=
  ('0' ≤ c && c ≤ '9') || ('a' ≤ c && c ≤ 'f') || ('A' ≤ c && c ≤ 'F')

def hexVal (c : Char) : Nat :=
  if '0' ≤ c && c ≤ '9' then c.toNat - '0'.toNat
  else if 'a' ≤ c && c ≤ 'f' then c.toNat - 'a'.toNat + 10
  else c.toNat - 'A'.toNat + 10

/-- urllib.parse.unquote for ASCII percent-escapes: a '%' followed by two
hex digits becomes the character with that code, anything else is copied
(escapes ≥ 0x80 would go through Python's UTF-8 decoding, which no claim
exercises). -/
def unquotePiece (piece : List Char) : List Char :=
  match piece with
  | a :: b :: rest =>
      if isHexDigit a && isHexDigit b then
        Char.ofNat (16 * hexVal a + hexVal b) :: rest
      else '%' :: piece
  | _ => '%' :: piece

def percentDecode (cs : List Char) : List Char :=
  match splitOnChar '%' cs with
  | [] => []
  | first :: pieces => first ++ (pieces.map unquotePiece).flatten

/-- A local filesystem path in PurePosixPath normal form: an
absolute-or-relative flag plus the list of nonempty, non-"." segments. -/
structure LPath where
  absolute : Bool
  segs : List String
deriving DecidableEq, Repr

/-- PurePath segment normalization of a raw path string. -/
def segsOf (cs : List Char) : List String :=
  ((splitOnChar '/' cs).map fun s => String.mk s).filter fun s => s ≠ "" ∧ s ≠ "."

/-- PurePath.name: the last segment (empty for the root or empty path). -/
def lpName (p : LPath) : String := p.segs.getLast?.getD ""

/-- The mapped local path of a URL, `none` when `url.split('://')[1]`
raises IndexError. -/
def pathOf (outputDirectory : String) (url : String) : Option LPath :=
  match splitFirstSub "://".data url.data with
  | none => none
  | some (_, afterScheme) =>
      let firstPiece :=
        match splitFirstSub "://".data afterScheme with
        | some (a, _) => a
        | none => afterScheme
      let dec := percentDecode firstPiece
      if dec.head? = some '/' then some ⟨true, segsOf dec⟩
      else
        some ⟨outputDirectory.data.head? == some '/',
              segsOf outputDirectory.data ++ segsOf dec⟩

/-! ### The concurrent engine: queue, workers, coordinator

`DSStoreDumper.worker` and `DSStoreDumper.run` run as asyncio tasks on one
event loop, so execution is a sequence of atomic segments separated only
by suspension points.  Inside the processing of one dequeued URL the only
suspension point is the network fetch (`session.get` and reading the
body); the seen-set test and insert, the filesystem operations, the
decode and the enqueues of children (`asyncio.Queue.put` on an unbounded
queue never blocks) all run without yielding.  The system is therefore
modelled as a transition system whose nondeterministic scheduling is an
explicit list of `Choice`s:

* `Choice.work i` runs worker `i`'s next atomic segment — either the
  segment from `queue.get()` up to the start of a fetch (or to
  `task_done` when no fetch is needed), or the segment from the end of
  its pending fetch to `task_done`;
* `Choice.join` runs the coordinator when `queue.join()` is released,
  which asyncio allows exactly when the queue's unfinished-task counter
  is zero; the coordinator then `put_nowait`s one `None` sentinel per
  worker.

Ghost fields `puts`, `dones`, `sPuts`, `sDones` and `fetches` count
WorkItems (URLs) ever enqueued, WorkItems ever marked done, sentinels
enqueued / marked done, and the URLs for which the Fetcher was invoked;
they change exactly where the corresponding Python effect happens and are
read by no transition. -/

structure Cfg where
  output_directory : String := "output"
  override : Bool := false
  num_workers : Nat := 10
deriving Repr

inductive FetchRes
  | ok
  | httpErr
  | transportErr
deriving DecidableEq, Repr

/-- The external collaborators: the HTTP server's response per URL, and
the Metadata Decoder's verdict on the bytes stored at a local path
(`none` models `buddy.BuddyError`).  The list order stands for the
iteration order of the Python set of entry names. -/
structure World where
  fetch : String → FetchRes
  decode : LPath → Option (List String)

inductive WStatus
  | idle
  | fetching (url : String) (path : LPath)
  | stopped
deriving DecidableEq, Repr

structure SysState where
  queue : List (Option String)
  unfinished : Nat
  seen : List String
  fs : List LPath
  workers : List WStatus
  joined : Bool
  puts : Nat
  dones : Nat
  sPuts : Nat
  sDones : Nat
  fetches : List String
deriving Repr

/-- queue.task_done() for a WorkItem, together with its ghost count. -/
def markDone (s : SysState) : SysState :=
  { s with unfinished := s.unfinished - 1, dones := s.dones + 1 }

/-- The child URL a decoded entry contributes, per the worker's
classification:

```
file_url = urljoin(url, filename)
if DOWNLOAD_RE.fullmatch(filename): put(file_url)
elif not EXTENSION_RE.search(filename): put(normalize_ds_store_url(file_url))
```
-/
def childUrl (url fn : String) : Option String :=
  match classify fn with
  | .directFetch => some (urljoin url fn)
  | .probeAsDirectory => some (normalize_ds_store_url (urljoin url fn))
  | .ignore => none

/-- Set-like deduplication of the decoded entry names
(`set(entry.filename for entry in DSStore.open(fp))`), keeping first
occurrences. -/
def dedupL : List String → List String
  | [] => []
  | x :: xs => x :: (dedupL xs).filter (· ≠ x)

/-- The URLs a successfully decoded metadata file enqueues. -/
def expandChildren (url : String) (entries : List String) : List String :=
  (dedupL entries).filterMap (childUrl url)

/-- The tail of one item's processing, from after the fetch decision to
`task_done`: the `downloaded.name != '.DS_Store'` test, the decode
(`open('rb')` raises into the outer handler when the file is absent,
which provably never happens), the `BuddyError` unlink, and the enqueue
of the children. -/
def finishItem (w : World) (url : String) (p : LPath) (s : SysState) : SysState :=
  if lpName p ≠ ".DS_Store" then markDone s
  else if p ∉ s.fs then markDone s
  else
    match w.decode p with
    | none => markDone { s with fs := s.fs.erase p }
    | some entries =>
        let cs := expandChildren url entries
        markDone { s with
          queue := s.queue ++ cs.map some,
          unfinished := s.unfinished + cs.length,
          puts := s.puts + cs.length }

/-- Insertion into the set of existing local files (writing the fetched
body to disk). -/
def insertFs (p : LPath) (fs : List LPath) : List LPath :=
  if p ∈ fs then fs else p :: fs

/-- One atomic segment of worker `i`.  An idle worker dequeues: the
sentinel stops it; a URL already in `seen_urls` is skipped; otherwise the
URL is claimed, its local path computed (IndexError when the URL has no
'://'), and either a fetch is started (file absent, or override) or the
item is finished synchronously on the existing file.  A worker whose
fetch is pending finishes it: HTTP status errors and transport errors are
logged and the item is marked done; success writes the file and proceeds
to decode. -/
def stepWork (cfg : Cfg) (w : World) (s : SysState) (i : Nat) : SysState :=
  match s.workers[i]? with
  | none => s
  | some .stopped => s
  | some (.fetching url p) =>
      match w.fetch url with
      | .httpErr => markDone { s with workers := s.workers.set i .idle }
      | .transportErr => markDone { s with workers := s.workers.set i .idle }
      | .ok =>
          finishItem w url p
            { s with workers := s.workers.set i .idle,
                     fs := insertFs p s.fs }
  | some .idle =>
      match s.queue with
      | [] => s
      | none :: rest =>
          { s with queue := rest, unfinished := s.unfinished - 1,
                   sDones := s.sDones + 1,
                   workers := s.workers.set i .stopped }
      | some url :: rest =>
          if url ∈ s.seen then markDone { s with queue := rest }
          else
            match pathOf cfg.output_directory url with
            | none => markDone { s with queue := rest, seen := url :: s.seen }
            | some p =>
                if p ∉ s.fs ∨ cfg.override then
                  { s with queue := rest, seen := url :: s.seen,
                           workers := s.workers.set i (.fetching url p),
                           fetches := url :: s.fetches }
                else
                  finishItem w url p
                    { s with queue := rest, seen := url :: s.seen }

/-- The coordinator's segment after `await download_queue.join()`: asyncio
releases the join exactly when the unfinished-task counter is zero, and
`run` then `put_nowait`s one `None` per worker (each put increments the
counter again). -/
def stepJoin (cfg : Cfg) (s : SysState) : SysState :=
  if s.joined then s
  else if s.unfinished = 0 then
    { s with joined := true,
             queue := s.queue ++ List.replicate cfg.num_workers none,
             unfinished := s.unfinished + cfg.num_workers,
             sPuts := s.sPuts + cfg.num_workers }
  else s

inductive Choice
  | work (i : Nat)
  | join
deriving DecidableEq, Repr

def step (cfg : Cfg) (w : World) (s : SysState) (c : Choice) : SysState :=
  match c with
  | .work i => stepWork cfg w s i
  | .join => stepJoin cfg s

/-- The state right after `run`'s seeding loop: every seed normalized and
`put_nowait`-ed (each put incrementing the unfinished counter), the seen
set untouched, the worker pool idle.  `fs0` is the ambient output
directory contents. -/
def initState (cfg : Cfg) (fs0 : List LPath) (seeds : List String) : SysState :=
  { queue := seeds.map fun u => some (normalize_ds_store_url u)
    unfinished := seeds.length
    seen := []
    fs := fs0
    workers := List.replicate cfg.num_workers .idle
    joined := false
    puts := seeds.length
    dones := 0
    sPuts := 0
    sDones := 0
    fetches := [] }

/-- Execution of `run` under an explicit schedule. -/
def runSim (cfg : Cfg) (w : World) (fs0 : List LPath) (seeds : List String)
    (sched : List Choice) : SysState :=
  sched.foldl (step cfg w) (initState cfg fs0 seeds)

/-- Is a worker currently suspended in a fetch? -/
def isFetchingW : WStatus → Bool
  | .fetching _ _ => true
  | _ => false

/-- The number of workers currently suspended in a fetch. -/
def countFetching (ws : List WStatus) : Nat :=
  ws.countP isFetchingW

/-! ### The master invariant

`Inv` collects the facts preserved by every transition from every initial
state: the asyncio unfinished-task counter equals the queued items plus
the in-flight fetches; the put/done ledgers balance the counter;
sentinels exist only after the coordinator's join was released; once the
join is released no work item is queued or in flight and the WorkItem
ledgers agree; the Fetcher has been invoked at most once per URL and only
for claimed URLs; and every in-flight URL is claimed. -/

structure Inv (cfg : Cfg) (s : SysState) : Prop where
  lenW : s.workers.length = cfg.num_workers
  count : s.unfinished = s.queue.length + countFetching s.workers
  balance : s.puts + s.sPuts = s.dones + s.sDones + s.unfinished
  sPutsPre : s.joined = false → s.sPuts = 0
  sDonesPre : s.joined = false → s.sDones = 0
  noSentinelPre : s.joined = false → ∀ x ∈ s.queue, x ≠ none
  fetchQuiet : s.joined = true → countFetching s.workers = 0
  queuePost : s.joined = true → ∀ x ∈ s.queue, x = none
  drained : s.joined = true → s.puts = s.dones
  fetchNodup : s.fetches.Nodup
  fetchSeen : ∀ u ∈ s.fetches, u ∈ s.seen
  fetchingSeen : ∀ (i : Nat) (u : String) (q : LPath),
    s.workers[i]? = some (WStatus.fetching u q) → u ∈ s.seen

/-- Effect summary of `finishItem`: some list of children is appended to
the queue (as work items), the counter rises by their number and then
falls by one for the `task_done`, the ledgers follow, and nothing else
but the filesystem changes. -/
theorem finishItem_spec (w : World) (url : String) (p : LPath) (s : SysState) :
    ∃ cs : List String,
      (finishItem w url p s).queue = s.queue ++ cs.map some ∧
      (finishItem w url p s).unfinished = s.unfinished + cs.length - 1 ∧
      (finishItem w url p s).dones = s.dones + 1 ∧
      (finishItem w url p s).puts = s.puts + cs.length ∧
      (finishItem w url p s).workers = s.workers ∧
      (finishItem w url p s).seen = s.seen ∧
      (finishItem w url p s).fetches = s.fetches ∧
      (finishItem w url p s).joined = s.joined ∧
      (finishItem w url p s).sPuts = s.sPuts ∧
      (finishItem w url p s).sDones = s.sDones ∧
      (cs = [] ∨ ∃ entries, w.decode p = some entries ∧
        cs = expandChildren url entries) := by
  unfold finishItem
  split
  · exact ⟨[], by simp [markDone]⟩
  · split
    · exact ⟨[], by simp [markDone]⟩
    · split
      · exact ⟨[], by simp [markDone]⟩
      · rename_i entries heq
        exact ⟨expandChildren url entries, by simp [markDone, heq]⟩

theorem inv_init (cfg : Cfg) (fs0 : List LPath) (seeds : List String) :
    Inv cfg (initState cfg fs0 seeds) := by
  refine ⟨?_, ?_, ?_, ?_, ?_, ?_, ?_, ?_, ?_, ?_, ?_, ?_⟩ <;>
    simp [initState, countFetching, isFetchingW, List.countP_replicate,
      List.getElem?_replicate]

/-- Every transition preserves the master invariant. -/
theorem inv_step (cfg : Cfg) (w : World) (s : SysState) (c : Choice)
    (h : Inv cfg s) : Inv cfg (step cfg w s c) := by
  obtain ⟨lenW, count, balance, sPutsPre, sDonesPre, noSentinelPre,
    fetchQuiet, queuePost, drained, fetchNodup, fetchSeen, fetchingSeen⟩ := h
  have invSame : Inv cfg s :=
    ⟨lenW, count, balance, sPutsPre, sDonesPre, noSentinelPre,
     fetchQuiet, queuePost, drained, fetchNodup, fetchSeen, fetchingSeen⟩
  cases c with
  | join =>
      show Inv cfg (stepJoin cfg s)
      unfold stepJoin
      by_cases hJ : s.joined = true
      · rw [if_pos hJ]
        exact invSame
      · rw [if_neg hJ]
        have hJ2 : s.joined = false := by
          cases hb : s.joined
          · rfl
          · exact absurd hb hJ
        by_cases hU : s.unfinished = 0
        · rw [if_pos hU]
          have hq0 : s.queue.length = 0 := by omega
          have hcf : countFetching s.workers = 0 := by omega
          have hqnil : s.queue = [] := List.length_eq_zero.mp hq0
          refine ⟨lenW, ?_, ?_, ?_, ?_, ?_, ?_, ?_, ?_, fetchNodup, fetchSeen,
            fetchingSeen⟩ <;> dsimp only
          · simp only [List.length_append, List.length_replicate]
            omega
          · omega
          · intro hx
            exact absurd hx (by decide)
          · intro hx
            exact absurd hx (by decide)
          · intro hx
            exact absurd hx (by decide)
          · intro _
            exact hcf
          · intro _ x hmem
            rw [hqnil] at hmem
            simp only [List.nil_append] at hmem
            exact List.eq_of_mem_replicate hmem
          · intro _
            have h1 := sPutsPre hJ2
            have h2 := sDonesPre hJ2
            omega
        · rw [if_neg hU]
          exact invSame
  | work i =>
      show Inv cfg (stepWork cfg w s i)
      unfold stepWork
      cases hw : s.workers[i]? with
      | none => exact invSame
      | some st =>
          obtain ⟨hi, hwi⟩ := List.getElem?_eq_some_iff.mp hw
          have hFG0 : ∀ (v : WStatus), (∀ u q, v ≠ WStatus.fetching u q) →
              ∀ (j : Nat) (u : String) (q : LPath),
                (s.workers.set i v)[j]? = some (WStatus.fetching u q) →
                  u ∈ s.seen := by
            intro v hv j u q hj
            by_cases hji : i = j
            · subst hji
              rw [List.getElem?_set_self hi] at hj
              exact absurd (Option.some.inj hj) (hv u q)
            · rw [List.getElem?_set_ne hji] at hj
              exact fetchingSeen j u q hj
          cases st with
          | stopped => exact invSame
          | fetching url p =>
              have hcf1 : 0 < countFetching s.workers :=
                List.countP_pos_iff.mpr
                  ⟨s.workers[i], List.getElem_mem hi, by rw [hwi]; rfl⟩
              have hJfalse : s.joined = false := by
                cases hb : s.joined
                · rfl
                · have := fetchQuiet hb
                  omega
              have hcfset : countFetching (s.workers.set i .idle)
                  = countFetching s.workers - 1 := by
                unfold countFetching
                rw [List.countP_set _ _ _ _ hi, hwi]
                simp [isFetchingW]
              have key : Inv cfg
                  (markDone { s with workers := s.workers.set i .idle }) := by
                refine ⟨?_, ?_, ?_, ?_, ?_, ?_, ?_, ?_, ?_, ?_, ?_, ?_⟩ <;>
                  dsimp only [markDone]
                · simpa using lenW
                · rw [hcfset]
                  omega
                · omega
                · intro hx
                  exact sPutsPre hx
                · intro hx
                  exact sDonesPre hx
                · intro hx
                  exact noSentinelPre hx
                · intro hx
                  rw [hJfalse] at hx
                  exact absurd hx (by decide)
                · intro hx
                  rw [hJfalse] at hx
                  exact absurd hx (by decide)
                · intro hx
                  rw [hJfalse] at hx
                  exact absurd hx (by decide)
                · exact fetchNodup
                · exact fetchSeen
                · exact hFG0 .idle (by intro u q hc; cases hc)
              dsimp only
              cases hf : w.fetch url with
              | httpErr => exact key
              | transportErr => exact key
              | ok =>
                  dsimp only
                  obtain ⟨cs, hq2, hu2, hd2, hp2, hwk2, hsn2, hft2, hjn2,
                    hsp2, hsd2, hcs2⟩ := finishItem_spec w url p
                      { s with workers := s.workers.set i .idle,
                               fs := insertFs p s.fs }
                  dsimp only at hq2 hu2 hd2 hp2 hwk2 hsn2 hft2 hjn2 hsp2 hsd2
                  refine ⟨?_, ?_, ?_, ?_, ?_, ?_, ?_, ?_, ?_, ?_, ?_, ?_⟩
                  · rw [hwk2]
                    simpa using lenW
                  · rw [hu2, hq2, hwk2, hcfset]
                    simp only [List.length_append, List.length_map]
                    omega
                  · rw [hu2, hd2, hp2, hsp2, hsd2]
                    omega
                  · intro hx
                    rw [hjn2] at hx
                    rw [hsp2]
                    exact sPutsPre hx
                  · intro hx
                    rw [hjn2] at hx
                    rw [hsd2]
                    exact sDonesPre hx
                  · intro hx x hmem
                    rw [hjn2] at hx
                    rw [hq2] at hmem
                    rcases List.mem_append.mp hmem with hm | hm
                    · exact noSentinelPre hx x hm
                    · rcases List.mem_map.mp hm with ⟨y, _, hy⟩
                      rw [← hy]
                      simp
                  · intro hx
                    rw [hjn2, hJfalse] at hx
                    exact absurd hx (by decide)
                  · intro hx
                    rw [hjn2, hJfalse] at hx
                    exact absurd hx (by decide)
                  · intro hx
                    rw [hjn2, hJfalse] at hx
                    exact absurd hx (by decide)
                  · rw [hft2]
                    exact fetchNodup
                  · intro u hu3
                    rw [hft2] at hu3
                    rw [hsn2]
                    exact fetchSeen u hu3
                  · intro j u q hj
                    rw [hwk2] at hj
                    rw [hsn2]
                    exact hFG0 .idle (by intro u q hc; cases hc) j u q hj
          | idle =>
              dsimp only
              cases hq : s.queue with
              | nil => exact invSame
              | cons q0 rest =>
                  have hlen : s.queue.length = rest.length + 1 := by
                    rw [hq]
                    simp
                  cases q0 with
                  | none =>
                      have hJtrue : s.joined = true := by
                        cases hb : s.joined
                        · have := noSentinelPre hb none (by rw [hq]; simp)
                          exact absurd rfl this
                        · rfl
                      have hcfs : countFetching (s.workers.set i .stopped)
                          = countFetching s.workers := by
                        unfold countFetching
                        rw [List.countP_set _ _ _ _ hi, hwi]
                        simp [isFetchingW]
                      refine ⟨?_, ?_, ?_, ?_, ?_, ?_, ?_, ?_, ?_, fetchNodup,
                        fetchSeen, ?_⟩ <;> dsimp only
                      · simpa using lenW
                      · rw [hcfs]
                        omega
                      · omega
                      · intro hx
                        rw [hJtrue] at hx
                        exact absurd hx (by decide)
                      · intro hx
                        rw [hJtrue] at hx
                        exact absurd hx (by decide)
                      · intro hx
                        rw [hJtrue] at hx
                        exact absurd hx (by decide)
                      · intro _
                        rw [hcfs]
                        exact fetchQuiet hJtrue
                      · intro _ x hmem
                        exact queuePost hJtrue x
                          (by rw [hq]; exact List.mem_cons_of_mem _ hmem)
                      · intro _
                        exact drained hJtrue
                      · exact hFG0 .stopped (by intro u q hc; cases hc)
                  | some url =>
                      dsimp only
                      have hJfalse : s.joined = false := by
                        cases hb : s.joined
                        · rfl
                        · have := queuePost hb (some url) (by rw [hq]; simp)
                          exact absurd this (by simp)
                      by_cases hseenMem : url ∈ s.seen
                      · rw [if_pos hseenMem]
                        refine ⟨?_, ?_, ?_, ?_, ?_, ?_, ?_, ?_, ?_, fetchNodup,
                          fetchSeen, fetchingSeen⟩ <;> dsimp only [markDone]
                        · exact lenW
                        · omega
                        · omega
                        · intro hx
                          exact sPutsPre hx
                        · intro hx
                          exact sDonesPre hx
                        · intro hx x hmem
                          exact noSentinelPre hx x
                            (by rw [hq]; exact List.mem_cons_of_mem _ hmem)
                        · intro hx
                          rw [hJfalse] at hx
                          exact absurd hx (by decide)
                        · intro hx
                          rw [hJfalse] at hx
                          exact absurd hx (by decide)
                        · intro hx
                          rw [hJfalse] at hx
                          exact absurd hx (by decide)
                      · rw [if_neg hseenMem]
                        have hseenGrow : ∀ u : String, u ∈ s.seen →
                            u ∈ url :: s.seen :=
                          fun u hu => List.mem_cons_of_mem _ hu
                        cases hpo : pathOf cfg.output_directory url with
                        | none =>
                            refine ⟨?_, ?_, ?_, ?_, ?_, ?_, ?_, ?_, ?_,
                              fetchNodup, ?_, ?_⟩ <;> dsimp only [markDone]
                            · exact lenW
                            · omega
                            · omega
                            · intro hx
                              exact sPutsPre hx
                            · intro hx
                              exact sDonesPre hx
                            · intro hx x hmem
                              exact noSentinelPre hx x
                                (by rw [hq]; exact List.mem_cons_of_mem _ hmem)
                            · intro hx
                              rw [hJfalse] at hx
                              exact absurd hx (by decide)
                            · intro hx
                              rw [hJfalse] at hx
                              exact absurd hx (by decide)
                            · intro hx
                              rw [hJfalse] at hx
                              exact absurd hx (by decide)
                            · intro u hu3
                              exact hseenGrow u (fetchSeen u hu3)
                            · intro j u q hj
                              exact hseenGrow u (fetchingSeen j u q hj)
                        | some p =>
                            dsimp only
                            by_cases hfc : p ∉ s.fs ∨ cfg.override
                            · rw [if_pos hfc]
                              have hnotin : url ∉ s.fetches := fun hmem =>
                                hseenMem (fetchSeen url hmem)
                              have hcfs2 : countFetching
                                  (s.workers.set i (.fetching url p))
                                    = countFetching s.workers + 1 := by
                                unfold countFetching
                                rw [List.countP_set _ _ _ _ hi, hwi]
                                simp [isFetchingW]
                              refine ⟨?_, ?_, ?_, ?_, ?_, ?_, ?_, ?_, ?_, ?_,
                                ?_, ?_⟩ <;> dsimp only
                              · simpa using lenW
                              · rw [hcfs2]
                                omega
                              · omega
                              · intro hx
                                exact sPutsPre hx
                              · intro hx
                                exact sDonesPre hx
                              · intro hx x hmem
                                exact noSentinelPre hx x
                                  (by rw [hq]; exact List.mem_cons_of_mem _ hmem)
                              · intro hx
                                rw [hJfalse] at hx
                                exact absurd hx (by decide)
                              · intro hx
                                rw [hJfalse] at hx
                                exact absurd hx (by decide)
                              · intro hx
                                rw [hJfalse] at hx
                                exact absurd hx (by decide)
                              · exact List.nodup_cons.mpr ⟨hnotin, fetchNodup⟩
                              · intro u hu3
                                rcases List.mem_cons.mp hu3 with hu3 | hu3
                                · rw [hu3]
                                  exact List.mem_cons_self _ _
                                · exact hseenGrow u (fetchSeen u hu3)
                              · intro j u q hj
                                by_cases hji : i = j
                                · subst hji
                                  rw [List.getElem?_set_self hi] at hj
                                  have hv := Option.some.inj hj
                                  cases hv
                                  exact List.mem_cons_self _ _
                                · rw [List.getElem?_set_ne hji] at hj
                                  exact hseenGrow u (fetchingSeen j u q hj)
                            · rw [if_neg hfc]
                              obtain ⟨cs, hq2, hu2, hd2, hp2, hwk2, hsn2, hft2,
                                hjn2, hsp2, hsd2, hcs2⟩ := finishItem_spec w url p
                                  { s with queue := rest,
                                           seen := url :: s.seen }
                              dsimp only at hq2 hu2 hd2 hp2 hwk2 hsn2 hft2 hjn2 hsp2 hsd2
                              refine ⟨?_, ?_, ?_, ?_, ?_, ?_, ?_, ?_, ?_, ?_,
                                ?_, ?_⟩
                              · rw [hwk2]
                                exact lenW
                              · rw [hu2, hq2, hwk2]
                                simp only [List.length_append, List.length_map]
                                omega
                              · rw [hu2, hd2, hp2, hsp2, hsd2]
                                omega
                              · intro hx
                                rw [hjn2] at hx
                                rw [hsp2]
                                exact sPutsPre hx
                              · intro hx
                                rw [hjn2] at hx
                                rw [hsd2]
                                exact sDonesPre hx
                              · intro hx x hmem
                                rw [hjn2] at hx
                                rw [hq2] at hmem
                                rcases List.mem_append.mp hmem with hm | hm
                                · exact noSentinelPre hx x
                                    (by rw [hq]
                                        exact List.mem_cons_of_mem _ hm)
                                · rcases List.mem_map.mp hm with ⟨y, _, hy⟩
                                  rw [← hy]
                                  simp
                              · intro hx
                                rw [hjn2, hJfalse] at hx
                                exact absurd hx (by decide)
                              · intro hx
                                rw [hjn2, hJfalse] at hx
                                exact absurd hx (by decide)
                              · intro hx
                                rw [hjn2, hJfalse] at hx
                                exact absurd hx (by decide)
                              · rw [hft2]
                                exact fetchNodup
                              · intro u hu3
                                rw [hft2] at hu3
                                rw [hsn2]
                                exact hseenGrow u (fetchSeen u hu3)
                              · intro j u q hj
                                rw [hwk2] at hj
                                rw [hsn2]
                                exact hseenGrow u (fetchingSeen j u q hj)

/-- The master invariant holds in every state of every simulated run. -/
theorem inv_run (cfg : Cfg) (w : World) (fs0 : List LPath)
    (seeds : List String) (sched : List Choice) :
    Inv cfg (runSim cfg w fs0 seeds sched) := by
  unfold runSim
  induction sched generalizing fs0 seeds with
  | nil => exact inv_init cfg fs0 seeds
  | cons c cs ih =>
      rw [List.foldl_cons]
      have : ∀ (s : SysState), Inv cfg s →
          Inv cfg (List.foldl (step cfg w) s cs) := by
        intro s hs
        clear ih
        induction cs generalizing s with
        | nil => exact hs
        | cons d ds ih2 =>
            rw [List.foldl_cons]
            exact ih2 _ (inv_step cfg w s d hs)
      exact this _ (inv_step cfg w _ c (inv_init cfg fs0 seeds))

/-! ### Claim theorems -/

/-- C6 — Classifier correctness: for every entry name the classifier
returns DirectFetch when DOWNLOAD_RE fullmatches (the allow-list of
suffixes or the metadata filename, this check evaluated first), otherwise
ProbeAsDirectory when EXTENSION_RE finds no extension-like trailing
component, otherwise Ignore; and the literal cases: "notes.txt" and
"backup.tar.gz" and ".DS_Store" are DirectFetch, "photos" is
ProbeAsDirectory, "image.png" is Ignore. -/
theorem classifier_correct :
    (∀ name : String, downloadMatch name = true →
      classify name = ClassifyResult.directFetch) ∧
    (∀ name : String, downloadMatch name = false → extensionSearch name = false →
      classify name = ClassifyResult.probeAsDirectory) ∧
    (∀ name : String, downloadMatch name = false → extensionSearch name = true →
      classify name = ClassifyResult.ignore) ∧
    classify "notes.txt" = ClassifyResult.directFetch ∧
    classify "backup.tar.gz" = ClassifyResult.directFetch ∧
    classify "photos" = ClassifyResult.probeAsDirectory ∧
    classify "image.png" = ClassifyResult.ignore ∧
    classify ".DS_Store" = ClassifyResult.directFetch := by
  refine ⟨?_, ?_, ?_, by decide, by decide, by decide, by decide, by decide⟩
  · intro name h
    simp [classify, h]
  · intro name h1 h2
    simp [classify, h1, h2]
  · intro name h1 h2
    simp [classify, h1, h2]

/-- Witness for C6: ".DS_Store" satisfies the DirectFetch rule while also
having no extension-like component (so the tie-break applies), and
"photos" satisfies the ProbeAsDirectory rule. -/
theorem classifier_correct_witness :
    downloadMatch ".DS_Store" = true ∧ extensionSearch ".DS_Store" = false ∧
    classify ".DS_Store" = ClassifyResult.directFetch ∧
    classify "photos" = ClassifyResult.probeAsDirectory :=
  ⟨by decide, by decide, classifier_correct.1 ".DS_Store" (by decide),
   classifier_correct.2.1 "photos" (by decide) (by decide)⟩

/-- C7 — Normalizer correctness: rule (1): without a scheme separator the
result is that of the input with "http://" prepended; rule (2): with a
separator, an address already ending in "/.DS_Store" is returned
unchanged, and otherwise ".DS_Store" is joined relative to the address
with a trailing '/' ensured; and the three literal cases. -/
theorem normalizer_correct :
    (∀ s : String, containsL "://".data s.data = false →
      normalize_ds_store_url s
        = normalize_ds_store_url ⟨"http://".data ++ s.data⟩) ∧
    (∀ s : String, containsL "://".data s.data = true →
      endsWithL "/.DS_Store".data s.data = true →
      normalize_ds_store_url s = s) ∧
    (∀ s : String, containsL "://".data s.data = true →
      endsWithL "/.DS_Store".data s.data = false →
      endsWithL "/".data s.data = true →
      normalize_ds_store_url s = urljoin s ".DS_Store") ∧
    (∀ s : String, containsL "://".data s.data = true →
      endsWithL "/.DS_Store".data s.data = false →
      endsWithL "/".data s.data = false →
      normalize_ds_store_url s = urljoin ⟨s.data ++ ['/']⟩ ".DS_Store") ∧
    normalize_ds_store_url "example.com" = "http://example.com/.DS_Store" ∧
    normalize_ds_store_url "example.com/a/" = "http://example.com/a/.DS_Store" ∧
    normalize_ds_store_url "https://x.com/.DS_Store"
      = "https://x.com/.DS_Store" := by
  refine ⟨?_, ?_, ?_, ?_, by decide, by decide, by decide⟩
  · intro s hs
    have key : containsL [':', '/', '/']
        ('h' :: 't' :: 't' :: 'p' :: ':' :: '/' :: '/' :: s.data) = true := by
      simp [containsL, startsWithL]
    simp [normalize_ds_store_url, hs, key]
  · intro s h1 h2
    simp [normalize_ds_store_url, h1, h2]
  · intro s h1 h2 h3
    simp [normalize_ds_store_url, h1, h2, h3]
  · intro s h1 h2 h3
    simp [normalize_ds_store_url, h1, h2, h3]

/-- Witness for C7: the rules applied at concrete inputs. -/
theorem normalizer_correct_witness :
    normalize_ds_store_url "example.com"
      = normalize_ds_store_url ⟨"http://".data ++ "example.com".data⟩ ∧
    normalize_ds_store_url "https://x.com/.DS_Store"
      = "https://x.com/.DS_Store" ∧
    normalize_ds_store_url "http://example.com/a/"
      = urljoin "http://example.com/a/" ".DS_Store" ∧
    normalize_ds_store_url "http://example.com"
      = urljoin ⟨"http://example.com".data ++ ['/']⟩ ".DS_Store" :=
  ⟨normalizer_correct.1 "example.com" (by decide),
   normalizer_correct.2.1 "https://x.com/.DS_Store" (by decide) (by decide),
   normalizer_correct.2.2.1 "http://example.com/a/" (by decide) (by decide)
     (by decide),
   normalizer_correct.2.2.2.1 "http://example.com" (by decide) (by decide)
     (by decide)⟩

/-- C8 counterexample — idempotence fails on "a://b/": the scheme "a" is
not in urllib's uses_relative list, so urljoin returns the relative
".DS_Store" bare, and normalizing that again prepends "http://". -/
theorem normalize_not_idempotent :
    normalize_ds_store_url (normalize_ds_store_url "a://b/")
      ≠ normalize_ds_store_url "a://b/" := by decide

/-- C8 amended — normalize_ds_store_url returns an already-canonical URL
(one containing "://" and ending in "/.DS_Store") unchanged; hence it is
idempotent at every input whose normalization is canonical in that sense
(it is not idempotent at every input: see the counterexample). -/
theorem normalize_idempotent_on_canonical :
    (∀ s : String, containsL "://".data s.data = true →
      endsWithL "/.DS_Store".data s.data = true →
      normalize_ds_store_url s = s) ∧
    (∀ s : String,
      containsL "://".data (normalize_ds_store_url s).data = true →
      endsWithL "/.DS_Store".data (normalize_ds_store_url s).data = true →
      normalize_ds_store_url (normalize_ds_store_url s)
        = normalize_ds_store_url s) := by
  have h1 : ∀ s : String, containsL "://".data s.data = true →
      endsWithL "/.DS_Store".data s.data = true →
      normalize_ds_store_url s = s := by
    intro s ha hb
    simp [normalize_ds_store_url, ha, hb]
  exact ⟨h1, fun s ha hb => h1 _ ha hb⟩

/-- Witness for C8: an already-canonical URL is unchanged, and
idempotence at a seed whose normalization is canonical. -/
theorem normalize_idempotent_on_canonical_witness :
    normalize_ds_store_url "https://x.com/.DS_Store"
      = "https://x.com/.DS_Store" ∧
    normalize_ds_store_url (normalize_ds_store_url "example.com")
      = normalize_ds_store_url "example.com" :=
  ⟨normalize_idempotent_on_canonical.1 "https://x.com/.DS_Store" (by decide)
     (by decide),
   normalize_idempotent_on_canonical.2 "example.com" (by decide) (by decide)⟩

/-! ### Concrete scenarios

Worlds and schedules instantiating the spec's testable properties.  Local
metadata paths under the default output directory. -/

def rootPath : LPath := ⟨false, ["output", "h", ".DS_Store"]⟩

def aPath : LPath := ⟨false, ["output", "h", "a", ".DS_Store"]⟩

def bPath : LPath := ⟨false, ["output", "h", "b", ".DS_Store"]⟩

def sharedPath : LPath := ⟨false, ["output", "h", "shared", ".DS_Store"]⟩

def examplePath : LPath := ⟨false, ["output", "example.com", ".DS_Store"]⟩

def cfgOne : Cfg := { num_workers := 1 }

def cfgTwo : Cfg := { num_workers := 2 }

/-- Drain scenario: the seed's metadata decodes to five downloadable
entries. -/
def worldDrain : World :=
  { fetch := fun _ => .ok
    decode := fun p =>
      if p = examplePath then
        some ["a.txt", "b.txt", "c.txt", "d.txt", "e.txt"]
      else none }

def schedDrain : List Choice :=
  [.work 0, .work 0, .work 0, .work 1, .work 0, .work 1,
   .work 0, .work 0, .work 0, .work 0, .work 0, .work 0,
   .join, .work 0, .work 1]

def finDrain : SysState := runSim cfgTwo worldDrain [] ["example.com"] schedDrain

/-- Dedup scenario: two different parents ("a" and "b") both list
"../shared", resolving to the same canonical URL. -/
def worldDup : World :=
  { fetch := fun _ => .ok
    decode := fun p =>
      if p = rootPath then some ["a", "b"]
      else if p = aPath then some ["../shared"]
      else if p = bPath then some ["../shared"]
      else if p = sharedPath then some []
      else none }

def schedDup : List Choice :=
  [.work 0, .work 0, .work 0, .work 1, .work 0, .work 1,
   .work 0, .work 1, .work 0, .join, .work 0, .work 1]

def finDup : SysState := runSim cfgTwo worldDup [] ["h"] schedDup

/-- Scheme scenario: the same host seeded over http and https maps to the
same local file. -/
def worldSchemes : World :=
  { fetch := fun _ => .ok
    decode := fun p => if p = rootPath then some [] else none }

def schedSchemes : List Choice := [.work 0, .work 0, .work 0, .join, .work 0]

def finSchemes : SysState :=
  runSim cfgOne worldSchemes [] ["http://h/", "https://h/"] schedSchemes

/-! ### C10 — scheme-insensitive output path mapping -/

/-- C10 — the local path discards the scheme: URLs differing only in
their scheme map to equal local paths; a dequeued URL whose mapped path
already exists is, with override off, processed without invoking the
Fetcher; and in the two-scheme scenario the https seed causes no network
request after the http seed was downloaded. -/
theorem path_scheme_insensitive :
    (∀ (out : String) (r : List Char),
      pathOf out ⟨"http://".data ++ r⟩ = pathOf out ⟨"https://".data ++ r⟩) ∧
    (∀ (cfg : Cfg) (w : World) (s : SysState) (i : Nat) (url : String)
       (rest : List (Option String)) (p : LPath),
      cfg.override = false →
      s.workers[i]? = some WStatus.idle →
      s.queue = some url :: rest →
      url ∉ s.seen →
      pathOf cfg.output_directory url = some p →
      p ∈ s.fs →
      (stepWork cfg w s i).fetches = s.fetches ∧
      (stepWork cfg w s i).workers = s.workers ∧
      (stepWork cfg w s i).seen = url :: s.seen ∧
      (stepWork cfg w s i).dones = s.dones + 1) ∧
    (finSchemes.fetches = ["http://h/.DS_Store"] ∧
     finSchemes.joined = true ∧ finSchemes.puts = 2 ∧ finSchemes.dones = 2) := by
  refine ⟨?_, ?_, by decide, by decide, by decide, by decide⟩
  · intro out r
    simp [pathOf, splitFirstSub, startsWithL]
  · intro cfg w s i url rest p hov hw hq hseen hpo hfs
    unfold stepWork
    rw [hw, hq]
    dsimp only
    rw [if_neg hseen, hpo]
    dsimp only
    rw [if_neg (by simp [hfs, hov])]
    obtain ⟨cs, hq2, hu2, hd2, hp2, hwk2, hsn2, hft2, hjn2, hsp2, hsd2,
      hcs2⟩ := finishItem_spec w url p
        { s with queue := rest, seen := url :: s.seen }
    dsimp only at hq2 hu2 hd2 hp2 hwk2 hsn2 hft2 hjn2 hsp2 hsd2
    exact ⟨hft2, hwk2, hsn2, hd2⟩

/-- Witness for C10: the skip applied at the state of the two-scheme
scenario right after the http seed was downloaded. -/
theorem path_scheme_insensitive_witness :
    (stepWork cfgOne worldSchemes
        (runSim cfgOne worldSchemes [] ["http://h/", "https://h/"]
          [Choice.work 0, Choice.work 0]) 0).fetches
      = (runSim cfgOne worldSchemes [] ["http://h/", "https://h/"]
          [Choice.work 0, Choice.work 0]).fetches :=
  (path_scheme_insensitive.2.1 cfgOne worldSchemes
    (runSim cfgOne worldSchemes [] ["http://h/", "https://h/"]
      [Choice.work 0, Choice.work 0]) 0 "https://h/.DS_Store" [] rootPath
    (by decide) (by decide) (by decide) (by decide) (by decide) (by decide)).1

/-! ### C1 — drain correctness -/

/-- C1 — Drain correctness: in every run, whenever the coordinator's
drain-wait has been released, the number of WorkItems ever marked done
equals the number of WorkItems ever enqueued (items enqueued by workers
mid-run included); in the scenario whose seed decodes to five new
entries, the join releases with all 6 = 1 + 5 WorkItems enqueued and
done. -/
theorem drain_correct :
    (∀ (cfg : Cfg) (w : World) (fs0 : List LPath) (seeds : List String)
       (sched : List Choice),
      (runSim cfg w fs0 seeds sched).joined = true →
      (runSim cfg w fs0 seeds sched).dones
        = (runSim cfg w fs0 seeds sched).puts) ∧
    (finDrain.joined = true ∧ finDrain.puts = 6 ∧ finDrain.dones = 6 ∧
     finDrain.workers = [WStatus.stopped, WStatus.stopped]) := by
  refine ⟨?_, by decide, by decide, by decide, by decide⟩
  intro cfg w fs0 seeds sched hj
  exact ((inv_run cfg w fs0 seeds sched).drained hj).symm

/-- Witness for C1: the general statement applied to the drain
scenario. -/
theorem drain_correct_witness :
    (runSim cfgTwo worldDrain [] ["example.com"] schedDrain).dones
      = (runSim cfgTwo worldDrain [] ["example.com"] schedDrain).puts :=
  drain_correct.1 cfgTwo worldDrain [] ["example.com"] schedDrain (by decide)

/-! ### C2 — at-most-once fetch -/

/-- C2 — Dedup: in every run the Fetcher is invoked at most once per URL,
and only for URLs present in the Dedup Set (the test-and-insert happens
atomically at dequeue); in the scenario where "a" and "b" both list
"../shared", the shared canonical URL is enqueued twice (5 enqueues for
4 distinct URLs) but fetched once. -/
theorem dedup_at_most_once_fetch :
    (∀ (cfg : Cfg) (w : World) (fs0 : List LPath) (seeds : List String)
       (sched : List Choice) (u : String),
      (runSim cfg w fs0 seeds sched).fetches.count u ≤ 1) ∧
    (∀ (cfg : Cfg) (w : World) (fs0 : List LPath) (seeds : List String)
       (sched : List Choice) (u : String),
      u ∈ (runSim cfg w fs0 seeds sched).fetches →
      u ∈ (runSim cfg w fs0 seeds sched).seen) ∧
    (finDup.puts = 5 ∧ finDup.dones = 5 ∧ finDup.fetches.length = 4 ∧
     finDup.fetches.count "http://h/shared/.DS_Store" = 1 ∧
     finDup.joined = true) := by
  refine ⟨?_, ?_, by decide, by decide, by decide, by decide, by decide⟩
  · intro cfg w fs0 seeds sched u
    exact List.nodup_iff_count_le_one.mp
      (inv_run cfg w fs0 seeds sched).fetchNodup u
  · intro cfg w fs0 seeds sched u hu
    exact (inv_run cfg w fs0 seeds sched).fetchSeen u hu

/-- Witness for C2: the claimed-before-fetch fact applied in the dedup
scenario. -/
theorem dedup_at_most_once_fetch_witness :
    "http://h/shared/.DS_Store" ∈ (runSim cfgTwo worldDup [] ["h"] schedDup).seen :=
  dedup_at_most_once_fetch.2.1 cfgTwo worldDup [] ["h"] schedDup
    "http://h/shared/.DS_Store" (by decide)

/-! ### C3 — claim-then-enqueue (refuted) -/

/-- C3 counterexample: immediately after `run` seeds the queue, the
normalized seed URL sits in the queue while the Dedup Set is still empty:
seeds are enqueued without being claimed, so an unclaimed URL is present
in the queue. -/
theorem seed_enqueued_unclaimed :
    some "http://example.com/.DS_Store"
        ∈ (initState { } [] ["example.com"]).queue ∧
    "http://example.com/.DS_Store" ∉ (initState { } [] ["example.com"]).seen := by
  decide

/-- C3 amended — claims happen at dequeue, not before enqueue: the
coordinator enqueues every normalized seed with the Dedup Set untouched,
and a URL is claimed exactly when a Worker dequeues it unseen — in
particular every URL a Worker is fetching is in the Dedup Set. -/
theorem claim_at_dequeue :
    (∀ (cfg : Cfg) (fs0 : List LPath) (seeds : List String),
      (initState cfg fs0 seeds).seen = [] ∧
      (initState cfg fs0 seeds).queue
        = seeds.map (fun u => some (normalize_ds_store_url u))) ∧
    (∀ (cfg : Cfg) (w : World) (fs0 : List LPath) (seeds : List String)
       (sched : List Choice) (i : Nat) (u : String) (q : LPath),
      (runSim cfg w fs0 seeds sched).workers[i]? = some (WStatus.fetching u q) →
      u ∈ (runSim cfg w fs0 seeds sched).seen) := by
  constructor
  · intro cfg fs0 seeds
    exact ⟨rfl, rfl⟩
  · intro cfg w fs0 seeds sched i u q h
    exact (inv_run cfg w fs0 seeds sched).fetchingSeen i u q h

/-- Witness for C3's amended claim: the worker that is fetching the seed
one step into the scheme scenario has claimed it. -/
theorem claim_at_dequeue_witness :
    "http://h/.DS_Store"
      ∈ (runSim cfgOne worldSchemes [] ["http://h/"] [Choice.work 0]).seen :=
  claim_at_dequeue.2 cfgOne worldSchemes [] ["http://h/"] [Choice.work 0] 0
    "http://h/.DS_Store" rootPath (by decide)

/-! ### C4 — worker error isolation -/

/-- World in which every request fails with a non-success HTTP status. -/
def worldFail : World :=
  { fetch := fun _ => .httpErr
    decode := fun _ => none }

/-- C4 — Worker error isolation: a worker only ever moves to its stopped
state by dequeuing the sentinel while idle (no transition stops it
otherwise); finishing any fetched item — success, decode failure or any
error — returns the worker to idle with the WorkItem marked done; and a
fetch that does not succeed (HTTP status error or transport error)
additionally enqueues nothing — the loop carries on in every case. -/
theorem worker_error_isolation :
    (∀ (cfg : Cfg) (w : World) (s : SysState) (c : Choice) (i : Nat),
      (step cfg w s c).workers[i]? = some WStatus.stopped →
      s.workers[i]? = some WStatus.stopped ∨
        (c = Choice.work i ∧ s.workers[i]? = some WStatus.idle ∧
          s.queue.head? = some none)) ∧
    (∀ (cfg : Cfg) (w : World) (s : SysState) (i : Nat) (url : String)
       (p : LPath),
      s.workers[i]? = some (WStatus.fetching url p) →
      (stepWork cfg w s i).workers[i]? = some WStatus.idle ∧
      (stepWork cfg w s i).dones = s.dones + 1) ∧
    (∀ (cfg : Cfg) (w : World) (s : SysState) (i : Nat) (url : String)
       (p : LPath),
      s.workers[i]? = some (WStatus.fetching url p) →
      w.fetch url ≠ FetchRes.ok →
      (stepWork cfg w s i).workers[i]? = some WStatus.idle ∧
      (stepWork cfg w s i).dones = s.dones + 1 ∧
      (stepWork cfg w s i).queue = s.queue ∧
      (stepWork cfg w s i).puts = s.puts) := by
  refine ⟨?_, ?_, ?_⟩
  · intro cfg w s c i hstop
    cases c with
    | join =>
        left
        replace hstop : (stepJoin cfg s).workers[i]? = some WStatus.stopped :=
          hstop
        unfold stepJoin at hstop
        split at hstop
        · exact hstop
        · split at hstop
          · exact hstop
          · exact hstop
    | work j =>
        replace hstop : (stepWork cfg w s j).workers[i]? = some WStatus.stopped :=
          hstop
        unfold stepWork at hstop
        split at hstop
        · exact Or.inl hstop
        · exact Or.inl hstop
        · rename_i url p hw
          have hj : j < s.workers.length :=
            (List.getElem?_eq_some_iff.mp hw).1
          split at hstop
          · dsimp only [markDone] at hstop
            left
            by_cases hji : j = i
            · subst hji
              rw [List.getElem?_set_self hj] at hstop
              simp at hstop
            · rw [List.getElem?_set_ne hji] at hstop
              exact hstop
          · dsimp only [markDone] at hstop
            left
            by_cases hji : j = i
            · subst hji
              rw [List.getElem?_set_self hj] at hstop
              simp at hstop
            · rw [List.getElem?_set_ne hji] at hstop
              exact hstop
          · obtain ⟨cs, hq2, hu2, hd2, hp2, hwk2, hsn2, hft2, hjn2, hsp2,
              hsd2, hcs2⟩ := finishItem_spec w url p
                { s with workers := s.workers.set j .idle,
                         fs := insertFs p s.fs }
            dsimp only at hwk2
            rw [hwk2] at hstop
            left
            by_cases hji : j = i
            · subst hji
              rw [List.getElem?_set_self hj] at hstop
              simp at hstop
            · rw [List.getElem?_set_ne hji] at hstop
              exact hstop
        · rename_i hw
          have hj : j < s.workers.length :=
            (List.getElem?_eq_some_iff.mp hw).1
          split at hstop
          · exact Or.inl hstop
          · rename_i rest hq
            dsimp only at hstop
            by_cases hji : j = i
            · subst hji
              right
              exact ⟨rfl, hw, by rw [hq]; rfl⟩
            · rw [List.getElem?_set_ne hji] at hstop
              exact Or.inl hstop
          · rename_i url rest hq
            split at hstop
            · dsimp only [markDone] at hstop
              exact Or.inl hstop
            · split at hstop
              · dsimp only [markDone] at hstop
                exact Or.inl hstop
              · rename_i p hpo
                split at hstop
                · dsimp only at hstop
                  left
                  by_cases hji : j = i
                  · subst hji
                    rw [List.getElem?_set_self hj] at hstop
                    simp at hstop
                  · rw [List.getElem?_set_ne hji] at hstop
                    exact hstop
                · obtain ⟨cs, hq2, hu2, hd2, hp2, hwk2, hsn2, hft2, hjn2,
                    hsp2, hsd2, hcs2⟩ := finishItem_spec w url p
                      { s with queue := rest, seen := url :: s.seen }
                  dsimp only at hwk2
                  rw [hwk2] at hstop
                  exact Or.inl hstop
  · intro cfg w s i url p hw
    have hi : i < s.workers.length :=
      (List.getElem?_eq_some_iff.mp hw).1
    unfold stepWork
    rw [hw]
    dsimp only
    cases hf : w.fetch url with
    | httpErr => exact ⟨List.getElem?_set_self hi, rfl⟩
    | transportErr => exact ⟨List.getElem?_set_self hi, rfl⟩
    | ok =>
        obtain ⟨cs, hq2, hu2, hd2, hp2, hwk2, hsn2, hft2, hjn2, hsp2, hsd2,
          hcs2⟩ := finishItem_spec w url p
            { s with workers := s.workers.set i .idle,
                     fs := insertFs p s.fs }
        dsimp only at hd2 hwk2
        constructor
        · rw [hwk2]
          exact List.getElem?_set_self hi
        · rw [hd2]
  · intro cfg w s i url p hw hne
    have hi : i < s.workers.length :=
      (List.getElem?_eq_some_iff.mp hw).1
    unfold stepWork
    rw [hw]
    dsimp only
    cases hf : w.fetch url with
    | ok => exact absurd hf hne
    | httpErr => exact ⟨List.getElem?_set_self hi, rfl, rfl, rfl⟩
    | transportErr => exact ⟨List.getElem?_set_self hi, rfl, rfl, rfl⟩

/-- Witness for C4: a worker stopping in the scheme scenario did dequeue
the sentinel, and a failing fetch of the seed leaves the worker idle with
the item done. -/
theorem worker_error_isolation_witness :
    ((runSim cfgOne worldSchemes [] ["http://h/", "https://h/"]
        [Choice.work 0, Choice.work 0, Choice.work 0, Choice.join]).workers[0]?
          = some WStatus.idle ∧
      (stepWork cfgOne worldFail
        (runSim cfgOne worldFail [] ["http://h/"] [Choice.work 0]) 0).dones
        = (runSim cfgOne worldFail [] ["http://h/"] [Choice.work 0]).dones
            + 1) := by
  constructor
  · decide
  · exact (worker_error_isolation.2.2 cfgOne worldFail
      (runSim cfgOne worldFail [] ["http://h/"] [Choice.work 0]) 0
      "http://h/.DS_Store" rootPath (by decide) (by decide)).2.1

/-! ### C9 — corruption handling -/

/-- World whose metadata bytes the decoder always rejects. -/
def worldCorrupt : World :=
  { fetch := fun _ => .ok
    decode := fun _ => none }

/-- C9 — Corruption handling: when the decoder rejects the downloaded
metadata bytes, the local file just written is deleted, no WorkItems are
enqueued from it, and the item is marked done with the worker back to
idle — the run continues. -/
theorem corruption_deletes_file (cfg : Cfg) (w : World) (s : SysState)
    (i : Nat) (url : String) (p : LPath)
    (hw : s.workers[i]? = some (WStatus.fetching url p))
    (hok : w.fetch url = FetchRes.ok)
    (hname : lpName p = ".DS_Store")
    (hdec : w.decode p = none)
    (hnd : s.fs.Nodup) :
    p ∉ (stepWork cfg w s i).fs ∧
    (stepWork cfg w s i).queue = s.queue ∧
    (stepWork cfg w s i).puts = s.puts ∧
    (stepWork cfg w s i).dones = s.dones + 1 ∧
    (stepWork cfg w s i).workers[i]? = some WStatus.idle := by
  have hi : i < s.workers.length :=
    (List.getElem?_eq_some_iff.mp hw).1
  have hmemIns : p ∈ insertFs p s.fs := by
    unfold insertFs
    split
    · assumption
    · exact List.mem_cons_self _ _
  have hndIns : (insertFs p s.fs).Nodup := by
    unfold insertFs
    split
    · exact hnd
    · exact List.nodup_cons.mpr ⟨by assumption, hnd⟩
  unfold stepWork
  rw [hw]
  dsimp only
  rw [hok]
  dsimp only
  unfold finishItem
  rw [if_neg (by simp [hname])]
  dsimp only
  rw [if_neg (by simp [hmemIns]), hdec]
  refine ⟨?_, rfl, rfl, rfl, ?_⟩
  · dsimp only [markDone]
    exact hndIns.not_mem_erase
  · dsimp only [markDone]
    exact List.getElem?_set_self hi

/-- Witness for C9: the corrupt-world run one step in: finishing the
fetch deletes the file and marks the item done. -/
theorem corruption_deletes_file_witness :
    rootPath ∉ (stepWork cfgOne worldCorrupt
        (runSim cfgOne worldCorrupt [] ["http://h/"] [Choice.work 0]) 0).fs ∧
    (stepWork cfgOne worldCorrupt
        (runSim cfgOne worldCorrupt [] ["http://h/"] [Choice.work 0]) 0).puts
      = (runSim cfgOne worldCorrupt [] ["http://h/"] [Choice.work 0]).puts :=
  ⟨(corruption_deletes_file cfgOne worldCorrupt
      (runSim cfgOne worldCorrupt [] ["http://h/"] [Choice.work 0]) 0
      "http://h/.DS_Store" rootPath (by decide) (by decide) (by decide)
      (by decide) (by decide)).1,
   (corruption_deletes_file cfgOne worldCorrupt
      (runSim cfgOne worldCorrupt [] ["http://h/"] [Choice.work 0]) 0
      "http://h/.DS_Store" rootPath (by decide) (by decide) (by decide)
      (by decide) (by decide)).2.2.1⟩

/-! ### C5 — cycle termination

The cyclic world: the host's root metadata lists the directory "a", and
the metadata of "a" lists "..", whose resolution leads straight back to
the root metadata URL. -/

def uRoot : String := "http://h/.DS_Store"

def uA : String := "http://h/a/.DS_Store"

def worldCyc : World :=
  { fetch := fun _ => .ok
    decode := fun p =>
      if p = rootPath then some ["a"]
      else if p = aPath then some [".."]
      else none }

def schedCyc : List Choice :=
  [.work 0, .work 0, .work 0, .work 0, .work 0, .join, .work 0, .work 1]

def finCyc : SysState := runSim cfgTwo worldCyc [] ["h"] schedCyc

/-- How many children a URL can ever contribute in the cyclic world. -/
def kidsCyc (u : String) : Nat :=
  match pathOf cfgTwo.output_directory u with
  | none => 0
  | some p =>
      match worldCyc.decode p with
      | none => 0
      | some es => (expandChildren u es).length

/-- The children a worker suspended in a fetch may still contribute. -/
def fWeight : WStatus → Nat
  | .fetching u _ => kidsCyc u
  | _ => 0

def potentialCyc (ws : List WStatus) : Nat := (ws.map fWeight).sum

theorem sum_map_set {α : Type} (f : α → Nat) (l : List α) (i : Nat)
    (v a : α) (h : l[i]? = some a) :
    ((l.set i v).map f).sum + f a = (l.map f).sum + f v := by
  induction l generalizing i with
  | nil => simp at h
  | cons x xs ih =>
      cases i with
      | zero =>
          simp only [List.getElem?_cons_zero, Option.some.injEq] at h
          subst h
          simp only [List.set, List.map_cons, List.sum_cons]
          omega
      | succ n =>
          simp only [List.getElem?_cons_succ] at h
          have := ih n h
          simp only [List.set, List.map_cons, List.sum_cons]
          omega

/-- The schedule-independent invariant of the cyclic run: only the two
cycle URLs ever sit in the queue or in a fetch, an in-flight fetch
carries its URL's mapped path, and the number of WorkItems ever enqueued
plus the children still obtainable from in-flight fetches never exceeds
one seed plus one child per claimed cycle URL. -/
structure InvCyc (s : SysState) : Prop where
  queueOK : ∀ u : String, some u ∈ s.queue → u = uRoot ∨ u = uA
  workOK : ∀ (i : Nat) (u : String) (q : LPath),
    s.workers[i]? = some (WStatus.fetching u q) →
      (u = uRoot ∨ u = uA) ∧ pathOf cfgTwo.output_directory u = some q
  budget : s.puts + potentialCyc s.workers
    ≤ 1 + (if uRoot ∈ s.seen then 1 else 0) + (if uA ∈ s.seen then 1 else 0)

theorem invCyc_step (s : SysState) (c : Choice) (h : InvCyc s) :
    InvCyc (step cfgTwo worldCyc s c) := by
  obtain ⟨queueOK, workOK, budget⟩ := h
  have childFacts : ∀ (url : String) (q : LPath) (entries : List String),
      (url = uRoot ∨ url = uA) →
      pathOf cfgTwo.output_directory url = some q →
      worldCyc.decode q = some entries →
      expandChildren url entries = (if url = uRoot then [uA] else [uRoot]) ∧
        kidsCyc url = 1 := by
    intro url q entries h1 hpo hde
    rcases h1 with rfl | rfl
    · have h2 : pathOf cfgTwo.output_directory uRoot = some rootPath := by
        decide
      rw [h2] at hpo
      have hq : q = rootPath := (Option.some.inj hpo).symm
      subst hq
      have h3 : worldCyc.decode rootPath = some ["a"] := by decide
      rw [h3] at hde
      have he : entries = ["a"] := (Option.some.inj hde).symm
      subst he
      exact ⟨by decide, by decide⟩
    · have h2 : pathOf cfgTwo.output_directory uA = some aPath := by decide
      rw [h2] at hpo
      have hq : q = aPath := (Option.some.inj hpo).symm
      subst hq
      have h3 : worldCyc.decode aPath = some [".."] := by decide
      rw [h3] at hde
      have he : entries = [".."] := (Option.some.inj hde).symm
      subst he
      exact ⟨by decide, by decide⟩
  cases c with
  | join =>
      show InvCyc (stepJoin cfgTwo s)
      unfold stepJoin
      by_cases hJ : s.joined = true
      · rw [if_pos hJ]
        exact ⟨queueOK, workOK, budget⟩
      · rw [if_neg hJ]
        by_cases hU : s.unfinished = 0
        · rw [if_pos hU]
          refine ⟨?_, workOK, budget⟩
          intro u hu
          rcases List.mem_append.mp hu with hm | hm
          · exact queueOK u hm
          · exact absurd (List.eq_of_mem_replicate hm) (by simp)
        · rw [if_neg hU]
          exact ⟨queueOK, workOK, budget⟩
  | work i =>
      show InvCyc (stepWork cfgTwo worldCyc s i)
      unfold stepWork
      cases hw : s.workers[i]? with
      | none => exact ⟨queueOK, workOK, budget⟩
      | some st =>
          obtain ⟨hi, hwi⟩ := List.getElem?_eq_some_iff.mp hw
          have hWOset : ∀ (v : WStatus), (∀ u q, v ≠ WStatus.fetching u q) →
              ∀ (j : Nat) (u : String) (q : LPath),
                (s.workers.set i v)[j]? = some (WStatus.fetching u q) →
                  (u = uRoot ∨ u = uA) ∧
                    pathOf cfgTwo.output_directory u = some q := by
            intro v hv j u q hj
            by_cases hji : i = j
            · subst hji
              rw [List.getElem?_set_self hi] at hj
              exact absurd (Option.some.inj hj) (hv u q)
            · rw [List.getElem?_set_ne hji] at hj
              exact workOK j u q hj
          cases st with
          | stopped => exact ⟨queueOK, workOK, budget⟩
          | fetching url p =>
              obtain ⟨hupair, hpo⟩ := workOK i url p hw
              have hpot : potentialCyc (s.workers.set i WStatus.idle)
                    + kidsCyc url = potentialCyc s.workers + 0 :=
                sum_map_set fWeight s.workers i WStatus.idle
                  (WStatus.fetching url p) hw
              dsimp only
              have hfok : worldCyc.fetch url = FetchRes.ok := rfl
              rw [hfok]
              obtain ⟨cs, hq2, hu2, hd2, hp2, hwk2, hsn2, hft2, hjn2, hsp2,
                hsd2, hcs2⟩ := finishItem_spec worldCyc url p
                  { s with workers := s.workers.set i .idle,
                           fs := insertFs p s.fs }
              dsimp only at hq2 hu2 hd2 hp2 hwk2 hsn2 hft2 hjn2 hsp2 hsd2
              have hk : cs.length ≤ kidsCyc url := by
                rcases hcs2 with rfl | ⟨entries, hde, rfl⟩
                · simp
                · obtain ⟨hexp, hkid⟩ := childFacts url p entries hupair hpo hde
                  rw [hexp, hkid]
                  split <;> simp
              refine ⟨?_, ?_, ?_⟩
              · intro u hu
                rw [hq2] at hu
                rcases List.mem_append.mp hu with hm | hm
                · exact queueOK u hm
                · rcases hcs2 with rfl | ⟨entries, hde, rfl⟩
                  · simp at hm
                  · obtain ⟨hexp, _⟩ := childFacts url p entries hupair hpo hde
                    rw [hexp] at hm
                    rcases hupair with rfl | rfl
                    · simp at hm
                      exact Or.inr hm
                    · have : uA = uRoot ∨ uA ≠ uRoot := by
                        right
                        decide
                      simp [show (uA = uRoot) = False by simp [uA, uRoot]] at hm
                      exact Or.inl hm
              · intro j u q hj
                rw [hwk2] at hj
                exact hWOset .idle (by intro u q hc; cases hc) j u q hj
              · rw [hp2, hsn2, hwk2]
                omega
          | idle =>
              dsimp only
              cases hq : s.queue with
              | nil => exact ⟨queueOK, workOK, budget⟩
              | cons q0 rest =>
                  have queueOKrest : ∀ u : String, some u ∈ rest →
                      u = uRoot ∨ u = uA := by
                    intro u hu
                    exact queueOK u (by rw [hq]; exact List.mem_cons_of_mem _ hu)
                  cases q0 with
                  | none =>
                      have hpot : potentialCyc
                            (s.workers.set i WStatus.stopped) + 0
                          = potentialCyc s.workers + 0 :=
                        sum_map_set fWeight s.workers i WStatus.stopped
                          WStatus.idle hw
                      refine ⟨?_, ?_, ?_⟩ <;> dsimp only
                      · exact queueOKrest
                      · exact hWOset .stopped (by intro u q hc; cases hc)
                      · omega
                  | some url =>
                      dsimp only
                      have hurl : url = uRoot ∨ url = uA :=
                        queueOK url (by rw [hq]; exact List.mem_cons_self _ _)
                      by_cases hseenMem : url ∈ s.seen
                      · rw [if_pos hseenMem]
                        refine ⟨?_, ?_, ?_⟩ <;> dsimp only [markDone]
                        · exact queueOKrest
                        · exact workOK
                        · exact budget
                      · rw [if_neg hseenMem]
                        have hmono : ∀ v : String,
                            (if v ∈ s.seen then 1 else 0)
                              ≤ (if v ∈ url :: s.seen then 1 else 0) := by
                          intro v
                          by_cases hv : v ∈ s.seen
                          · simp [hv, List.mem_cons_of_mem _ hv]
                          · simp [hv]
                        have hbump : (if url ∈ s.seen then 1 else 0) + 1
                            = (if url ∈ url :: s.seen then 1 else 0)
                              + (if url ∈ s.seen then 1 else 0) := by
                          simp [hseenMem]
                        cases hpo : pathOf cfgTwo.output_directory url with
                        | none =>
                            refine ⟨?_, ?_, ?_⟩ <;> dsimp only [markDone]
                            · exact queueOKrest
                            · exact workOK
                            · have h1 := hmono uRoot
                              have h2 := hmono uA
                              omega
                        | some p =>
                            dsimp only
                            by_cases hfc : p ∉ s.fs ∨ cfgTwo.override
                            · rw [if_pos hfc]
                              have hpot : potentialCyc
                                    (s.workers.set i (WStatus.fetching url p))
                                      + 0
                                  = potentialCyc s.workers + kidsCyc url :=
                                sum_map_set fWeight s.workers i
                                  (WStatus.fetching url p) WStatus.idle hw
                              have hkid1 : kidsCyc url ≤ 1 := by
                                rcases hurl with rfl | rfl
                                · decide
                                · decide
                              refine ⟨?_, ?_, ?_⟩ <;> dsimp only
                              · exact queueOKrest
                              · intro j u q hj
                                by_cases hji : i = j
                                · subst hji
                                  rw [List.getElem?_set_self hi] at hj
                                  have hv := Option.some.inj hj
                                  cases hv
                                  exact ⟨hurl, hpo⟩
                                · rw [List.getElem?_set_ne hji] at hj
                                  exact workOK j u q hj
                              · rcases hurl with rfl | rfl
                                · have hb1 : (if uRoot ∈ s.seen then 1 else 0)
                                      = 0 := by simp [hseenMem]
                                  have hb1n : (if uRoot ∈ uRoot :: s.seen
                                      then 1 else 0) = 1 := by simp
                                  have hb2 := hmono uA
                                  omega
                                · have hb1 : (if uA ∈ s.seen then 1 else 0)
                                      = 0 := by simp [hseenMem]
                                  have hb1n : (if uA ∈ uA :: s.seen
                                      then 1 else 0) = 1 := by simp
                                  have hb2 := hmono uRoot
                                  omega
                            · rw [if_neg hfc]
                              obtain ⟨cs, hq2, hu2, hd2, hp2, hwk2, hsn2, hft2,
                                hjn2, hsp2, hsd2, hcs2⟩ :=
                                finishItem_spec worldCyc url p
                                  { s with queue := rest,
                                           seen := url :: s.seen }
                              dsimp only at hq2 hu2 hd2 hp2 hwk2 hsn2 hft2 hjn2 hsp2 hsd2
                              have hk : cs.length ≤ kidsCyc url := by
                                rcases hcs2 with rfl | ⟨entries, hde, rfl⟩
                                · simp
                                · obtain ⟨hexp, hkid⟩ :=
                                    childFacts url p entries hurl hpo hde
                                  rw [hexp, hkid]
                                  split <;> simp
                              have hkid1 : kidsCyc url ≤ 1 := by
                                rcases hurl with rfl | rfl
                                · decide
                                · decide
                              refine ⟨?_, ?_, ?_⟩
                              · intro u hu
                                rw [hq2] at hu
                                rcases List.mem_append.mp hu with hm | hm
                                · exact queueOKrest u hm
                                · rcases hcs2 with rfl | ⟨entries, hde, rfl⟩
                                  · simp at hm
                                  · obtain ⟨hexp, _⟩ :=
                                      childFacts url p entries hurl hpo hde
                                    rw [hexp] at hm
                                    rcases hurl with rfl | rfl
                                    · simp at hm
                                      exact Or.inr hm
                                    · simp [show (uA = uRoot) = False by
                                        simp [uA, uRoot]] at hm
                                      exact Or.inl hm
                              · intro j u q hj
                                rw [hwk2] at hj
                                exact workOK j u q hj
                              · rw [hp2, hsn2, hwk2]
                                rcases hurl with rfl | rfl
                                · have hb1 : (if uRoot ∈ s.seen then 1 else 0)
                                      = 0 := by simp [hseenMem]
                                  have hb1n : (if uRoot ∈ uRoot :: s.seen
                                      then 1 else 0) = 1 := by simp
                                  have hb2 := hmono uA
                                  omega
                                · have hb1 : (if uA ∈ s.seen then 1 else 0)
                                      = 0 := by simp [hseenMem]
                                  have hb1n : (if uA ∈ uA :: s.seen
                                      then 1 else 0) = 1 := by simp
                                  have hb2 := hmono uRoot
                                  omega

theorem invCyc_init (fs0 : List LPath) :
    InvCyc (initState cfgTwo fs0 ["h"]) := by
  refine ⟨?_, ?_, ?_⟩
  · intro u hu
    simp [initState] at hu
    subst hu
    left
    decide
  · intro i u q hwk
    simp only [initState] at hwk
    rw [List.getElem?_replicate] at hwk
    split at hwk <;> simp at hwk
  · dsimp only [initState]
    decide

theorem invCyc_run (sched : List Choice) (fs0 : List LPath) :
    InvCyc (runSim cfgTwo worldCyc fs0 ["h"] sched) := by
  unfold runSim
  have gen : ∀ (s : SysState), InvCyc s →
      InvCyc (List.foldl (step cfgTwo worldCyc) s sched) := by
    induction sched with
    | nil => exact fun s hs => hs
    | cons c cs ih =>
        intro s hs
        rw [List.foldl_cons]
        exact ih _ (invCyc_step s c hs)
  exact gen _ (invCyc_init fs0)

/-- C5 — Cycle termination: in the cyclic world (root lists "a", "a"
lists "..", which resolves back to the root) the run terminates: the
re-enqueued root URL is skipped without re-processing (each URL fetched
once), the counter drains, the join releases, run returns with both
workers stopped; and under every schedule the WorkItems ever enqueued are
bounded by 3, so the crawl cannot loop forever. -/
theorem cycle_termination :
    (finCyc.joined = true ∧
     finCyc.workers = [WStatus.stopped, WStatus.stopped] ∧
     finCyc.puts = 3 ∧ finCyc.dones = 3 ∧
     finCyc.fetches = [uA, uRoot]) ∧
    (∀ (sched : List Choice) (fs0 : List LPath),
      (runSim cfgTwo worldCyc fs0 ["h"] sched).puts ≤ 3) := by
  constructor
  · exact ⟨by decide, by decide, by decide, by decide, by decide⟩
  · intro sched fs0
    have hb := (invCyc_run sched fs0).budget
    have h1 : (if uRoot ∈ (runSim cfgTwo worldCyc fs0 ["h"] sched).seen
        then 1 else 0) ≤ 1 := by
      split <;> omega
    have h2 : (if uA ∈ (runSim cfgTwo worldCyc fs0 ["h"] sched).seen
        then 1 else 0) ≤ 1 := by
      split <;> omega
    omega

end DSStoreDump
